import Mathlib

/-!
Verification of the Pan-Tompkins QRS detection pipeline
(`src/preprocessing_with_beats/pan_tompkins.py`).

The Python code is shallowly embedded over exact rationals (`ℚ`): every
float sample becomes a rational, Python `round` becomes round-half-to-even,
Python `int()` becomes truncation toward zero, Python/numpy slicing and
negative-index wrap-around are modelled explicitly, and code paths that
raise (`max()` of an empty sequence, out-of-range indexing) are modelled
with `Option`, `none` standing for the raised exception.
-/

set_option allowUnsafeReducibility true in
attribute [semireducible] Rat.add Rat.mul Rat.sub Rat.inv Rat.ofScientific

/-- Python `round`: round half to even (banker's rounding) of an exact rational. -/
def pyRound (x : ℚ) : ℤ :=
  let f := x.floor
  let frac := x - f
  if frac < 1/2 then f
  else if 1/2 < frac then f + 1
  else if f % 2 = 0 then f else f + 1

/-- Python `int()` applied to a real value: truncation toward zero. -/
def pyInt (x : ℚ) : ℤ :=
  if 0 ≤ x then x.floor else -((-x).floor)

/-- Normalization of a Python slice endpoint for a sequence of length `n`:
negative endpoints count from the end, then the result is clamped to `[0, n]`. -/
def pyBound (n : ℕ) (i : ℤ) : ℕ :=
  if i < 0 then (i + n).toNat else min i.toNat n

/-- Python slicing `l[a:b]` (step 1), with negative endpoints counting from the
end of the list and out-of-range endpoints clamped. -/
def pySlice {α : Type} (l : List α) (a b : ℤ) : List α :=
  (l.take (pyBound l.length b)).drop (pyBound l.length a)

/-- Consecutive differences of a list, `np.diff`. -/
def diffs : List ℚ → List ℚ
  | x :: y :: rest => (y - x) :: diffs (y :: rest)
  | _ => []

/-- Arithmetic mean, `np.mean` (the empty case is never reached by the code paths
modelled here). -/
def qmean (l : List ℚ) : ℚ := l.sum / l.length

/-- Python `max(l, default := d)`: the maximum of a list, or `d` when it is empty. -/
def qmaxD (l : List ℚ) (d : ℚ) : ℚ :=
  match l with
  | [] => d
  | x :: xs => xs.foldl max x

/-- Python `max(l)` on a possibly empty list: `none` models the `ValueError`
raised on an empty sequence. -/
def qmax (l : List ℚ) : Option ℚ :=
  match l with
  | [] => none
  | x :: xs => some (xs.foldl max x)

/-- Python `min(l)` on a nonempty list (callers below only use it nonempty). -/
def qminD (l : List ℚ) (d : ℚ) : ℚ :=
  match l with
  | [] => d
  | x :: xs => xs.foldl min x

/-- Index of the first element of `l` equal to `v`, the embedding of
`np.asarray(l == v).nonzero()[0][0]`. -/
def firstIdxEq (l : List ℚ) (v : ℚ) : Option ℕ :=
  match l with
  | [] => none
  | x :: xs => if x = v then some 0 else (firstIdxEq xs v).map (· + 1)

/-- Low-pass filter recursion `y[n] = x[n] + 2 y[n-1] - y[n-2] - 2 x[n-6] + x[n-12]`
(`Pan_Tompkins_QRS.band_pass_filter`, first loop), any term with a negative index
dropped.  Returns the pair `(y[n], y[n-1])` so that the recursion is structural. -/
def lpAux (x : List ℚ) : ℕ → ℚ × ℚ
  | 0 => (x.getD 0 0, 0)
  | n + 1 =>
    let p := lpAux x n
    (x.getD (n + 1) 0 + 2 * p.1 - (if 2 ≤ n + 1 then p.2 else 0)
      - (if 6 ≤ n + 1 then 2 * x.getD (n + 1 - 6) 0 else 0)
      + (if 12 ≤ n + 1 then x.getD (n + 1 - 12) 0 else 0), p.1)

/-- Output list of the low-pass stage of the bandpass filter. -/
def low_pass (x : List ℚ) : List ℚ :=
  (List.range x.length).map (fun n => (lpAux x n).1)

/-- High-pass filter recursion `y[n] = -s[n] - y[n-1] + 32 s[n-16] + s[n-32]`
(`Pan_Tompkins_QRS.band_pass_filter`, second loop). -/
def hpAux (s : List ℚ) : ℕ → ℚ
  | 0 => -(s.getD 0 0)
  | n + 1 => -(s.getD (n + 1) 0) - hpAux s n
      + (if 16 ≤ n + 1 then 32 * s.getD (n + 1 - 16) 0 else 0)
      + (if 32 ≤ n + 1 then s.getD (n + 1 - 32) 0 else 0)

/-- Output list of the high-pass stage of the bandpass filter, before normalization. -/
def high_pass (s : List ℚ) : List ℚ :=
  (List.range s.length).map (fun n => hpAux s n)

/-- The normalization divisor `max(max(result), -min(result))` of the bandpass
filter, on the unnormalized high-pass output. -/
def bp_norm_divisor (result : List ℚ) : ℚ :=
  max (qmaxD result 0) (-(qminD result 0))

/-- `Pan_Tompkins_QRS.band_pass_filter`: low-pass, then high-pass, then division of
every sample by `max(max(result), -min(result))`.  On an empty input Python's
`max()` raises (`none`).  The division is performed unconditionally, exactly as in
the source; over `ℚ` a zero divisor yields `0` samples where IEEE floats would
yield `NaN` — no error is raised in either semantics. -/
def band_pass_filter (signal : List ℚ) : Option (List ℚ) :=
  let result := high_pass (low_pass signal)
  if result.isEmpty then none
  else some (result.map (fun v => v / bp_norm_divisor result))

/-- `Pan_Tompkins_QRS.derivative`: `y[n] = (freq/8)(-x[n-2] - 2 x[n-1] + 2 x[n+1] + x[n+2])`,
with each term present only under the source's exact index guards. -/
def derivative (freq : ℚ) (signal : List ℚ) : List ℚ :=
  (List.range signal.length).map (fun n =>
    ((if 1 ≤ n then -(2 * signal.getD (n - 1) 0) else 0)
      + (if 2 ≤ n then -(signal.getD (n - 2) 0) else 0)
      + (if 2 ≤ n ∧ (n : ℤ) ≤ (signal.length : ℤ) - 2 then 2 * signal.getD (n + 1) 0 else 0)
      + (if 2 ≤ n ∧ (n : ℤ) ≤ (signal.length : ℤ) - 3 then signal.getD (n + 2) 0 else 0))
      * freq / 8)

/-- `Pan_Tompkins_QRS.squaring`: pointwise squaring. -/
def squaring (signal : List ℚ) : List ℚ :=
  signal.map (fun v => v * v)

/-- One pass of the moving-window integration loop: at index `j` the running sum
gains `x[j]/w` and, from `j ≥ w` on, loses `x[j-w]/w`; `fuel` counts the remaining
outputs. -/
def mwiGo (x : List ℚ) (w : ℕ) (s : ℚ) (j : ℕ) : ℕ → List ℚ
  | 0 => []
  | fuel + 1 =>
    let t := s + x.getD j 0 / w - (if w ≤ j then x.getD (j - w) 0 / w else 0)
    t :: mwiGo x w t (j + 1) fuel

/-- `Pan_Tompkins_QRS.moving_window_integration` with window `round(0.15 freq)`.
Python's first loop reads `signal[j]` for every `j < win_size`, so an input shorter
than the window raises `IndexError` (`none`). -/
def moving_window_integration (freq : ℚ) (signal : List ℚ) : Option (List ℚ) :=
  let win_size := (pyRound (0.15 * freq)).toNat
  if signal.length < win_size then none
  else some (mwiGo signal win_size 0 0 signal.length)

/-- The record of the four cascade outputs returned by `Pan_Tompkins_QRS.solve`. -/
structure QrsDict where
  bpass : List ℚ
  der : List ℚ
  sqr : List ℚ
  mwin : List ℚ
deriving DecidableEq, Repr

/-- `Pan_Tompkins_QRS.solve`: bandpass, then derivative, then squaring, then
moving-window integration; `none` when a stage raises. -/
def solve (freq : ℚ) (signal : List ℚ) : Option QrsDict :=
  match band_pass_filter signal with
  | none => none
  | some bpass =>
    let der := derivative freq bpass
    let sqr := squaring der
    match moving_window_integration freq sqr with
    | none => none
    | some mwin => some ⟨bpass, der, sqr, mwin⟩

/-- The per-lead constants held by `R_peak_extractor.__init__`: the raw signal, the
sampling frequency, and the two pipeline outputs it reads (`mwin` and `bpass`). -/
structure Ctx where
  signal : List ℚ
  samp_freq : ℚ
  m_win : List ℚ
  b_pass : List ℚ
deriving DecidableEq, Repr

/-- `self.win_150ms = round(0.15 * samp_freq)`. -/
def win150 (ctx : Ctx) : ℕ := (pyRound (0.15 * ctx.samp_freq)).toNat

/-- `win_200ms = round(0.2 * samp_freq)` used by `ecg_searchback`. -/
def win_200ms (ctx : Ctx) : ℕ := (pyRound (0.2 * ctx.samp_freq)).toNat

/-- Builds the extractor context exactly as `R_peak_extractor(denoised_record[i],
freq, qrs_dict)` does. -/
def mkCtx (signal : List ℚ) (freq : ℚ) (d : QrsDict) : Ctx :=
  ⟨signal, freq, d.mwin, d.bpass⟩

/-- The mutable state of `R_peak_extractor` threaded through `find_r_peaks`. -/
structure RState where
  RR1 : List ℚ
  RR2 : List ℚ
  probable_peaks : List ℕ
  r_locs : List ℤ
  SPKI : ℚ
  NPKI : ℚ
  Threshold_I1 : ℚ
  Threshold_I2 : ℚ
  SPKF : ℚ
  NPKF : ℚ
  Threshold_F1 : ℚ
  Threshold_F2 : ℚ
  T_wave : Bool
  RR_Low_Limit : ℚ
  RR_High_Limit : ℚ
  RR_Missed_Limit : ℚ
  RR_Average1 : ℚ
deriving DecidableEq, Repr

/-- The all-zero initial state set up by `R_peak_extractor.__init__`. -/
def initState : RState :=
  ⟨[], [], [], [], 0, 0, 0, 0, 0, 0, 0, 0, false, 0, 0, 0, 0⟩

/-- Exact-arithmetic counterpart of `sg.fftconvolve(m_win, np.full((25,), 1)/25,
mode = same)`: the same-length centered convolution with a uniform kernel of
width 25. -/
def conv_same25 (x : List ℚ) : List ℚ :=
  (List.range x.length).map (fun i =>
    let lo := i - 12
    let hi := min (x.length - 1) (i + 12)
    ((List.range' lo (hi + 1 - lo)).map (fun j => x.getD j 0)).sum / 25)

/-- `R_peak_extractor.approx_peak`: smooth the integrated signal, then collect
every strict local maximum with index in `[round(0.5 freq) + 1, len - 2]`. -/
def approx_peak (ctx : Ctx) : List ℕ :=
  let slopes := conv_same25 ctx.m_win
  let a := (pyRound (0.5 * ctx.samp_freq)).toNat + 1
  (List.range' a (slopes.length - 1 - a)).filter (fun i =>
    decide (slopes.getD (i - 1) 0 < slopes.getD i 0) &&
    decide (slopes.getD (i + 1) 0 < slopes.getD i 0))

/-- The index window `np.arange(max(0, p - w), min(p + w, len(b_pass) - 1), 1)`
searched around candidate `p` in `find_r_peaks`. -/
def win_300ms (b_pass : List ℚ) (w p : ℕ) : List ℕ :=
  List.range' (p - w) ((min ((p : ℤ) + w) ((b_pass.length : ℤ) - 1) - ((p - w : ℕ) : ℤ)).toNat)

/-- `max_val = max(b_pass[win_300ms], default = 0)` for candidate `p`. -/
def window_max (b_pass : List ℚ) (w p : ℕ) : ℚ :=
  qmaxD ((win_300ms b_pass w p).map (fun i => b_pass.getD i 0)) 0

/-- The Probable Peak List entry produced for candidate `p` by `find_r_peaks`
(lines 460-469): when the window maximum is nonzero, the index appended is the
first index of the WHOLE bandpass signal whose value equals that maximum
(`np.asarray(b_pass == max_val).nonzero()[0][0]`). -/
def probable_peak_entry (b_pass : List ℚ) (w p : ℕ) : Option ℕ :=
  if window_max b_pass w p ≠ 0 then firstIdxEq b_pass (window_max b_pass w p) else none

/-- `R_peak_extractor.adjust_rr_interval`. -/
def adjust_rr_interval (ctx : Ctx) (peaks : List ℕ) (st : RState) (ind : ℕ) : RState :=
  let rr1 := (diffs ((pySlice peaks (max 0 ((ind : ℤ) - 8)) ((ind : ℤ) + 1)).map
      (fun n => (n : ℚ)))).map (fun d => d / ctx.samp_freq)
  let avg1 := qmean rr1
  let pair :=
    if 8 ≤ ind then
      (List.range 8).foldl (fun (acc : List ℚ × ℚ) i =>
        let v := rr1.getD i 0
        if st.RR_Low_Limit < v ∧ v < st.RR_High_Limit then
          let r2 := acc.1 ++ [v]
          if 8 < r2.length then (r2.drop 1, qmean (r2.drop 1)) else (r2, acc.2)
        else acc) (st.RR2, avg1)
    else (st.RR2, avg1)
  let st1 := { st with RR1 := rr1, RR2 := pair.1, RR_Average1 := avg1 }
  if 7 < pair.1.length ∨ ind < 8 then
    { st1 with
      RR_Low_Limit := 0.92 * pair.2, RR_High_Limit := 1.16 * pair.2,
      RR_Missed_Limit := 1.66 * pair.2 }
  else st1

/-- The first window position whose value exceeds `th` and attains the maximum of
all such qualifying values: the embedding of the
`coord = np.asarray(win > th).nonzero()[0]` plus first-argmax loop used twice in
`R_peak_extractor.searchback`.  The returned position is RELATIVE to the window,
exactly as in the source. -/
def first_qualifying_max (win : List ℚ) (th : ℚ) : Option ℕ :=
  let coord := (List.range win.length).filter (fun pos => decide (th < win.getD pos 0))
  coord.find? (fun pos =>
    decide (win.getD pos 0 = qmaxD (coord.map (fun q => win.getD q 0)) 0))

/-- `R_peak_extractor.searchback`.  Note that the source reads `m_win[x_max]` and
`b_pass[r_max]` with the window-relative positions `x_max`, `r_max` and appends
the window-relative `r_max` to `r_locs`; both reads are always in bounds because
each window is a slice of the indexed list, so `getD` is exact here. -/
def searchback (ctx : Ctx) (st : RState) (pv : ℕ) (RRn : ℚ) (sb_win : ℤ) : RState :=
  if st.RR_Missed_Limit < RRn then
    let win_rr := pySlice ctx.m_win ((pv : ℤ) - sb_win + 1) ((pv : ℤ) + 1)
    match first_qualifying_max win_rr st.Threshold_I1 with
    | none => st
    | some x_max =>
      let sp := 0.25 * ctx.m_win.getD x_max 0 + 0.75 * st.SPKI
      let ti1 := st.NPKI + 0.25 * (sp - st.NPKI)
      let st1 := { st with SPKI := sp, Threshold_I1 := ti1, Threshold_I2 := 0.5 * ti1 }
      let win2 := pySlice ctx.b_pass ((x_max : ℤ) - (win150 ctx : ℤ))
          (min ((ctx.b_pass.length : ℤ) - 1) (x_max : ℤ))
      match first_qualifying_max win2 st1.Threshold_F1 with
      | none => st1
      | some r_max =>
        if st1.Threshold_F2 < ctx.b_pass.getD r_max 0 then
          let sf := 0.25 * ctx.b_pass.getD r_max 0 + 0.75 * st1.SPKF
          let tf1 := st1.NPKF + 0.25 * (sf - st1.NPKF)
          { st1 with
            SPKF := sf, Threshold_F1 := tf1, Threshold_F2 := 0.5 * tf1,
            r_locs := st1.r_locs ++ [(r_max : ℤ)] }
        else st1
  else st

/-- `R_peak_extractor.find_t_wave`.  `none` models the exceptions the source can
raise: `max()` of an empty `np.diff` slice, or indexing `probable_peaks[ind]` /
`b_pass[ind]` out of range.  The comparison `probable_peaks[ind] > Threshold_F1`
compares the stored INDEX with the bandpass threshold, and the `SPKF`/`NPKF`
updates read `b_pass[ind]` with the loop counter `ind`, exactly as the source
does. -/
def find_t_wave (ctx : Ctx) (peaks : List ℕ) (st : RState) (pv : ℕ) (RRn : ℚ)
    (ind prev_ind : ℕ) : Option RState :=
  match ctx.m_win[pv]? with
  | none => none
  | some mv =>
    if st.Threshold_I1 ≤ mv then
      let stT : Option RState :=
        if 0 < ind ∧ 0.20 < RRn ∧ RRn < 0.36 then
          let half := pyRound ((win150 ctx : ℚ) / 2)
          let pp := peaks.getD prev_ind 0
          match qmax (diffs (pySlice ctx.m_win ((pv : ℤ) - half) ((pv : ℤ) + 1))),
              qmax (diffs (pySlice ctx.m_win ((pp : ℤ) - half) ((pp : ℤ) + 1))) with
          | some curr_slope, some last_slope =>
            if curr_slope < 0.5 * last_slope then
              some { st with T_wave := true, NPKI := 0.125 * mv + 0.875 * st.NPKI }
            else some st
          | _, _ => none
        else some st
      match stT with
      | none => none
      | some st1 =>
        if st1.T_wave = false then
          match st1.probable_peaks[ind]? with
          | none => none
          | some pp =>
            match ctx.b_pass[ind]? with
            | none => none
            | some bv =>
              if st1.Threshold_F1 < (pp : ℚ) then
                some { st1 with
                  SPKI := 0.125 * mv + 0.875 * st1.SPKI,
                  SPKF := 0.125 * bv + 0.875 * st1.SPKF,
                  r_locs := st1.r_locs ++ [(pp : ℤ)] }
              else
                some { st1 with
                  SPKI := 0.125 * mv + 0.875 * st1.SPKI,
                  NPKF := 0.125 * bv + 0.875 * st1.NPKF }
        else some st1
    else
      if mv < st.Threshold_I1 ∨ (st.Threshold_I1 < mv ∧ mv < st.Threshold_I2) then
        match ctx.b_pass[ind]? with
        | none => none
        | some bv =>
          some { st with
            NPKI := 0.125 * mv + 0.875 * st.NPKI,
            NPKF := 0.125 * bv + 0.875 * st.NPKF }
      else some st

/-- `R_peak_extractor.adjust_thresholds` (learning phase).  As in the source,
the acceptance test compares the stored probable-peak INDEX `probable_peaks[ind]`
with `Threshold_F1`, and `SPKF`/`NPKF` are updated from `b_pass[ind]` where `ind`
is the loop counter; `none` models the `IndexError` paths. -/
def adjust_thresholds (ctx : Ctx) (st : RState) (pv ind : ℕ) : Option RState :=
  match ctx.m_win[pv]? with
  | none => none
  | some mv =>
    if st.Threshold_I1 ≤ mv then
      match st.probable_peaks[ind]? with
      | none => none
      | some pp =>
        let st1 := { st with SPKI := 0.125 * mv + 0.875 * st.SPKI }
        match ctx.b_pass[ind]? with
        | none => none
        | some bv =>
          if st1.Threshold_F1 < (pp : ℚ) then
            some { st1 with
              SPKF := 0.125 * bv + 0.875 * st1.SPKF,
              r_locs := st1.r_locs ++ [(pp : ℤ)] }
          else
            some { st1 with NPKF := 0.125 * bv + 0.875 * st1.NPKF }
    else
      if mv < st.Threshold_I2 ∨ (st.Threshold_I2 < mv ∧ mv < st.Threshold_I1) then
        match ctx.b_pass[ind]? with
        | none => none
        | some bv =>
          some { st with
            NPKI := 0.125 * mv + 0.875 * st.NPKI,
            NPKF := 0.125 * bv + 0.875 * st.NPKF }
      else some st

/-- `R_peak_extractor.update_thresholds`: recompute the four derived thresholds
and reset the T-wave flag. -/
def update_thresholds (st : RState) : RState :=
  let ti1 := st.NPKI + 0.25 * (st.SPKI - st.NPKI)
  let tf1 := st.NPKF + 0.25 * (st.SPKF - st.NPKF)
  { st with
    Threshold_I1 := ti1, Threshold_F1 := tf1,
    Threshold_I2 := 0.5 * ti1, Threshold_F2 := 0.5 * tf1, T_wave := false }

/-- Numpy integer indexing `sig[i]` with negative-index wrap-around: `none` models
the `IndexError` raised when `i` is out of range on both sides. -/
def npGet (sig : List ℚ) (i : ℤ) : Option ℚ :=
  if 0 ≤ i then sig[i.toNat]?
  else if -(sig.length : ℤ) ≤ i then sig[(i + sig.length).toNat]? else none

/-- The value read by `npGet`, defaulting to `0` (used only under a proof or a
check that the read succeeds). -/
def npVal (sig : List ℚ) (i : ℤ) : ℚ := (npGet sig i).getD 0

/-- `np.arange(a, b, 1)` as a list of integers. -/
def intRange (a b : ℤ) : List ℤ :=
  (List.range (b - a).toNat).map (fun k : ℕ => a + (k : ℤ))

/-- The first position `p` of `l` with `f p = m`: the embedding of the
`for pos in coord: if sig[pos] == max(sig[coord]): x_max = pos; break` loop. -/
def findFirstMax (f : ℤ → ℚ) (m : ℚ) : List ℤ → Option ℤ
  | [] => none
  | p :: ps => if f p = m then some p else findFirstMax f m ps

/-- One iteration of the `ecg_searchback` loop for accepted index `r`: search the
window `np.arange(r - w, min(len(sig), r + w + 1))` of the RAW signal (note: the
left end is not clipped at zero, so negative positions index from the end of the
signal) for the first position attaining the window maximum.  The outer `none`
models an `IndexError` on a window position below `-len(sig)`; the inner `none`
is the `x_max = None` (empty window) case in which nothing is appended. -/
def ecg_step (sig : List ℚ) (w : ℕ) (r : ℤ) : Option (Option ℤ) :=
  let coord := intRange (r - (w : ℤ)) (min (sig.length : ℤ) (r + (w : ℤ) + 1))
  if coord.all (fun p => (npGet sig p).isSome) then
    some (findFirstMax (npVal sig) (qmaxD (coord.map (npVal sig)) 0) coord)
  else none

/-- Insertion into a sorted list of integers (auxiliary for `npUnique`). -/
def insertSorted (x : ℤ) : List ℤ → List ℤ
  | [] => [x]
  | y :: ys => if x ≤ y then x :: y :: ys else y :: insertSorted x ys

/-- Insertion sort on integers (auxiliary for `npUnique`). -/
def sortInts : List ℤ → List ℤ
  | [] => []
  | x :: xs => insertSorted x (sortInts xs)

/-- `np.unique`: the sorted list of the distinct values of `l`. -/
def npUnique (l : List ℤ) : List ℤ := sortInts l.dedup

/-- The `for r_val in self.r_locs` loop of `ecg_searchback`: run `ecg_step` on each
index in order, appending every found position; `none` propagates a raised
`IndexError`. -/
def ecg_run (sig : List ℚ) (w : ℕ) : List ℤ → Option (List ℤ)
  | [] => some []
  | r :: rs =>
    match ecg_step sig w r with
    | none => none
    | some none => ecg_run sig w rs
    | some (some x) => (ecg_run sig w rs).map (fun l => x :: l)

/-- `R_peak_extractor.ecg_searchback`: deduplicate and sort `r_locs`, then refine
each index against the raw signal. -/
def ecg_searchback (sig : List ℚ) (w : ℕ) (r_locs : List ℤ) : Option (List ℤ) :=
  ecg_run sig w (npUnique r_locs)

/-- The body of the `for ind in range(len(self.peaks))` loop of
`R_peak_extractor.find_r_peaks`. -/
def find_r_peaks_step (ctx : Ctx) (peaks : List ℕ) (st : RState) (ind : ℕ) :
    Option RState :=
  let pv := peaks.getD ind 0
  let st1 :=
    match probable_peak_entry ctx.b_pass (win150 ctx) pv with
    | some e => { st with probable_peaks := st.probable_peaks ++ [e] }
    | none => st
  let next : Option RState :=
    if ind < st1.probable_peaks.length ∧ ind ≠ 0 then
      let st2 := adjust_rr_interval ctx peaks st1 ind
      let st3 :=
        if st2.RR_Average1 < st2.RR_Low_Limit ∨ st2.RR_Missed_Limit < st2.RR_Average1 then
          { st2 with
            Threshold_I1 := st2.Threshold_I1 / 2,
            Threshold_F1 := st2.Threshold_F1 / 2 }
        else st2
      let RRn := st3.RR1.getLastD 0
      let st4 := searchback ctx st3 pv RRn (pyRound (RRn * ctx.samp_freq))
      find_t_wave ctx peaks st4 pv RRn ind (ind - 1)
    else
      adjust_thresholds ctx st1 pv ind
  next.map update_thresholds

/-- `R_peak_extractor.find_r_peaks`: candidate location, the per-candidate
adaptive-threshold loop, then the final `ecg_searchback` refinement.  Returns the
final state (with `r_locs` deduplicated, as the source reassigns it) together
with the returned `result` list; `none` models a raised exception. -/
def find_r_peaks (ctx : Ctx) : Option (RState × List ℤ) :=
  let peaks := approx_peak ctx
  match (List.range peaks.length).foldlM (fun st ind => find_r_peaks_step ctx peaks st ind)
      initState with
  | none => none
  | some st =>
    match ecg_searchback ctx.signal (win_200ms ctx) st.r_locs with
    | none => none
    | some res => some ({ st with r_locs := npUnique st.r_locs }, res)

/-- `left_bound = int(n_seconds4beat*freq*1/4)` of `extract_beats`. -/
def left_bound (n_seconds4beat freq : ℚ) : ℤ := pyInt (n_seconds4beat * freq * 1 / 4)

/-- `right_bound = int(n_seconds4beat*freq*3/4)` of `extract_beats`. -/
def right_bound (n_seconds4beat freq : ℚ) : ℤ := pyInt (n_seconds4beat * freq * 3 / 4)

/-- The peaks `extract_beats` slices beats around: `result = result[result > 0]`
followed by `result = result[1:]`. -/
def selected_peaks (rpeaks : List ℤ) : List ℤ :=
  (rpeaks.filter (fun x => decide (0 < x))).drop 1

/-- The per-lead beat extraction loop of `extract_beats`: for each selected peak,
skip it when its window leaves the signal bounds, otherwise slice
`sig[p - left_bound : p + right_bound]`. -/
def extract_beats_lead (sig : List ℚ) (rpeaks : List ℤ) (lb rb : ℤ) : List (List ℚ) :=
  (selected_peaks rpeaks).filterMap (fun p =>
    if (sig.length : ℤ) ≤ p + rb ∨ p - lb < 0 then none
    else some (pySlice sig (p - lb) (p + rb)))

/-- Modelled from the spec: claim C6 describes the final refinement window for
accepted index `r` as the ±200ms window around `r` CLIPPED to `[0, len(signal))`,
read with ordinary (non-wrapping) indexing, and the reported peak as the first
index attaining the maximum raw-signal value over that window. -/
def spec_refined_peak (sig : List ℚ) (w : ℕ) (r : ℤ) : Option ℤ :=
  let coord := intRange (max 0 (r - (w : ℤ))) (min (sig.length : ℤ) (r + (w : ℤ) + 1))
  findFirstMax (fun p => (sig[p.toNat]?).getD 0)
    (qmaxD (coord.map (fun p => (sig[p.toNat]?).getD 0)) 0) coord

set_option maxRecDepth 10000

/-- Integrated signal (free `qrs_dict` input) for the C1 run: a single smoothed
local maximum that makes candidate 7 the only approximate peak at 10 Hz. -/
def mwC1 : List ℚ := ((List.replicate 30 0).set 19 1).set 20 (-1)

/-- Bandpass signal for the C1 run: the ±150ms window of candidate 7 is
`[5, 9)` with maximum value `7` at index 6, but the same value `7` already
occurs earlier at index 2, outside the window. -/
def bpC1 : List ℚ := ((List.replicate 30 0).set 2 7).set 6 7

/-- Extractor context for the C1 run (signal all zero, 10 Hz). -/
def ctxC1 : Ctx := ⟨List.replicate 30 0, 10, mwC1, bpC1⟩

/-- Integrated signal for the C2 searchback run: inside the searchback window
`m_win[21:26]` the only value above `Threshold_I1 = 0` is `m_win[24] = 5`
(window-relative position 3), while `m_win` at the RELATIVE position 3 itself
holds `0`, and `m_win[18] = 100` sits outside the window. -/
def mwC2 : List ℚ := ((List.replicate 26 0).set 18 100).set 24 5

/-- Bandpass signal for the C2 searchback run: the second search window is
`b_pass[1:3] = [3, 4]`, whose maximum `4` sits at ABSOLUTE index 2. -/
def bpC2 : List ℚ := [0, 3, 4, 0]

/-- Extractor context for the C2 searchback run (10 Hz, so `win_150ms = 2`). -/
def ctxC2 : Ctx := ⟨[], 10, mwC2, bpC2⟩

/-- State for the C2 searchback run: all levels zero, `RR_Missed_Limit = 0.4`
so that `RRn = 0.5` triggers the searchback. -/
def stC2 : RState := { initState with RR_Missed_Limit := 0.4 }

/-- Integrated signal for the C3 learning-phase run: `m_win[50] = 1` so the
candidate passes the integrated-domain test. -/
def mwC3 : List ℚ := (List.replicate 51 0).set 50 1

/-- Bandpass signal for the C3 learning-phase run: the bandpass value at the
probable-peak index 50 is `0` (not above `Threshold_F1 = 0`), while
`b_pass[0] = 8` is the value the code actually folds into `SPKF`. -/
def bpC3 : List ℚ := (List.replicate 51 0).set 0 8

/-- Extractor context for the C3 learning-phase run. -/
def ctxC3 : Ctx := ⟨[], 250, mwC3, bpC3⟩

/-- State for the C3 learning-phase run: probable peak 50 recorded, thresholds 0. -/
def stC3 : RState := { initState with probable_peaks := [50] }

/-- Raw signal for the C5 run: maximum 9 at index 4, shared by the windows of
the two accepted indices 3 and 4 (10 Hz, `win_200ms = 2`). -/
def sigC5 : List ℚ := [0, 0, 0, 0, 9, 0, 0, 0]

/-- Raw signal for the C6 run: for accepted index 1 the unclipped window
reaches position `-1`, which wraps to the last sample `9`. -/
def sigC6 : List ℚ := [0, 1, 0, 0, 0, 0, 0, 9]

/-- C1, counterexample.  Running `find_r_peaks` end to end on `ctxC1` yields the
single candidate 7 and appends probable-peak entry 2, which lies OUTSIDE the
±150ms window `[5, 9)` of that candidate: the entry is the first index of the
whole bandpass signal attaining the window maximum, not an index within the
window. -/
theorem C1_counterexample :
    approx_peak ctxC1 = [7] ∧
    (find_r_peaks ctxC1).map (fun pr => pr.1.probable_peaks) = some [2] ∧
    ¬ (2 ∈ win_300ms bpC1 (win150 ctxC1) 7) := by decide

/-- C2, code bug.  At the failing searchback input, the first window maximum of
the integrated signal is 5 (at absolute index 24, window-relative position 3),
so by the spec `SPKI` should become `0.25 * 5 + 0.75 * 0 = 5/4` and the appended
bandpass index should be the absolute index 2 (where the second-window maximum 4
sits); the code instead reads `m_win[3] = 0`, leaving `SPKI = 0`, and appends the
window-relative offset 1. -/
theorem C2_code_divergence :
    (searchback ctxC2 stC2 25 (1/2) 5).r_locs = [1] ∧
    (searchback ctxC2 stC2 25 (1/2) 5).SPKI = 0 ∧
    qmaxD (pySlice ctxC2.m_win ((25 : ℤ) - 5 + 1) (25 + 1)) 0 = 5 ∧
    (0.25 * (5 : ℚ) + 0.75 * stC2.SPKI = 5/4) ∧ ((0 : ℚ) ≠ 5/4) ∧
    ctxC2.b_pass.getD 2 0 = 4 ∧ ((1 : ℤ) ≠ 2) ∧
    pyRound ((1/2 : ℚ) * ctxC2.samp_freq) = 5 := by decide

/-- C3, code bug.  At the failing learning-phase input the bandpass value at the
probable-peak index 50 is `0`, which does NOT exceed `Threshold_F1 = 0`, so by
the spec the candidate must be rejected in the bandpass domain; the code instead
compares the INDEX 50 with `Threshold_F1`, accepts, appends 50 to the accepted
set, and folds `b_pass[0] = 8` (the loop counter as index) into `SPKF`. -/
theorem C3_code_divergence :
    (adjust_thresholds ctxC3 stC3 50 0).map RState.r_locs = some [50] ∧
    (adjust_thresholds ctxC3 stC3 50 0).map RState.SPKF = some 1 ∧
    ctxC3.b_pass.getD 50 0 = 0 ∧ stC3.Threshold_F1 = 0 ∧ ¬ ((0 : ℚ) < 0) := by decide

/-- C4, counterexample.  On the all-zero signal of length 40 the bandpass
normalization divisor is zero, yet `band_pass_filter` returns normally (it
performs the division; in IEEE floats the samples become NaN): no explicit
DegenerateSignal failure is raised. -/
theorem C4_counterexample :
    bp_norm_divisor (high_pass (low_pass (List.replicate 40 0))) = 0 ∧
    (band_pass_filter (List.replicate 40 0)).isSome = true := by decide

/-- C5, counterexample.  With accepted indices 3 and 4 sharing the raw-signal
maximum at index 4, `ecg_searchback` returns `[4, 4]`: the output is not
strictly ascending and contains a duplicate. -/
theorem C5_counterexample :
    ecg_searchback sigC5 2 [3, 4] = some [4, 4] ∧
    ¬ List.Pairwise (fun a b => a < b) ([4, 4] : List ℤ) := by decide

/-- C6, counterexample.  For accepted index 1 with `win_200ms = 2` the code's
window is `np.arange(-1, 4)`: position `-1` wraps to the last raw sample (value
9), so the reported peak is `-1`, whereas the claim's window clipped to
`[0, len)` has its maximum at index 1. -/
theorem C6_counterexample :
    ecg_searchback sigC6 2 [1] = some [-1] ∧
    spec_refined_peak sigC6 2 1 = some 1 ∧ ((-1 : ℤ) ≠ 1) := by decide

/-- C7, counterexample.  At `freq = 250`, `n_seconds4beat = 1` the code computes
the bounds with `int()` truncation: `62 + 187 = 249`, not the claimed
`round(62.5) + round(187.5) = 250`; the extracted beat around peak 100 of a
300-sample signal has 249 samples. -/
theorem C7_counterexample :
    left_bound 1 250 = 62 ∧ right_bound 1 250 = 187 ∧
    pyRound ((1 : ℚ) * 250 * 1 / 4) + pyRound ((1 : ℚ) * 250 * 3 / 4) = 250 ∧
    (extract_beats_lead (List.replicate 300 0) [5, 100]
      (left_bound 1 250) (right_bound 1 250)).map List.length = [249] ∧
    (249 : ℕ) ≠ 250 := by decide

/-- C8, counterexample.  The signal `[1]` at 10 Hz is shorter than
`round(0.5 * freq) + 2 = 7`, but running the pipeline raises (the moving-window
integrator indexes past the end of a signal shorter than its window) instead of
yielding empty candidate and R-peak lists. -/
theorem C8_counterexample :
    ((([(1 : ℚ)]).length : ℤ) < pyRound (0.5 * 10) + 2) ∧ solve 10 [(1 : ℚ)] = none := by
  decide

/-- C9, counterexample.  The moving-window integration stage does not return a
same-length output for every input: on a 10-sample signal at 250 Hz (window 38)
it raises an IndexError instead of returning at all. -/
theorem C9_counterexample :
    moving_window_integration 250 (List.replicate 10 1) = none := by decide

theorem firstIdxEq_spec :
    ∀ (l : List ℚ) (v : ℚ) (e : ℕ), firstIdxEq l v = some e →
      e < l.length ∧ l.getD e 0 = v ∧ ∀ j, j < e → l.getD j 0 ≠ v
  | [], v, e, h => by simp [firstIdxEq] at h
  | x :: xs, v, e, h => by
    by_cases hx : x = v
    · rw [firstIdxEq, if_pos hx] at h
      cases h
      exact ⟨by simp, by simpa using hx, fun j hj => absurd hj (by omega)⟩
    · rw [firstIdxEq, if_neg hx] at h
      rw [Option.map_eq_some'] at h
      obtain ⟨e', he', rfl⟩ := h
      obtain ⟨h1, h2, h3⟩ := firstIdxEq_spec xs v e' he'
      refine ⟨by simpa using h1, by simpa using h2, fun j hj => ?_⟩
      cases j with
      | zero => simpa using hx
      | succ j' => simpa using h3 j' (by omega)

/-- C1, amended.  Whenever `find_r_peaks` appends a Probable Peak List entry `e`
for a candidate, `e` is the first index of the WHOLE bandpass signal whose value
equals the maximum of the bandpass signal over the ±150ms window of the
candidate; it therefore lies inside the window only when the first global
occurrence of that maximum value does. -/
theorem C1_amended_thm (b_pass : List ℚ) (w p e : ℕ)
    (h : probable_peak_entry b_pass w p = some e) :
    e < b_pass.length ∧ b_pass.getD e 0 = window_max b_pass w p ∧
      ∀ j, j < e → b_pass.getD j 0 ≠ window_max b_pass w p := by
  rw [probable_peak_entry] at h
  by_cases hw : window_max b_pass w p ≠ 0
  · rw [if_pos hw] at h
    exact firstIdxEq_spec b_pass (window_max b_pass w p) e h
  · rw [if_neg hw] at h
    cases h

/-- C1, amended, witness at the concrete C1 run: entry 2 is appended for
candidate 7 and is the first global index attaining the window maximum. -/
theorem C1_amended_witness :
    probable_peak_entry bpC1 2 7 = some 2 ∧
      (2 < bpC1.length ∧ bpC1.getD 2 0 = window_max bpC1 2 7 ∧
        ∀ j, j < 2 → bpC1.getD j 0 ≠ window_max bpC1 2 7) :=
  ⟨by decide, C1_amended_thm bpC1 2 7 2 (by decide)⟩

theorem low_pass_length (x : List ℚ) : (low_pass x).length = x.length := by
  simp [low_pass]

theorem high_pass_length (s : List ℚ) : (high_pass s).length = s.length := by
  simp [high_pass]

theorem derivative_length (freq : ℚ) (s : List ℚ) : (derivative freq s).length = s.length := by
  simp [derivative]

theorem squaring_length (s : List ℚ) : (squaring s).length = s.length := by
  simp [squaring]

theorem mwiGo_length (x : List ℚ) (w : ℕ) :
    ∀ (fuel : ℕ) (s : ℚ) (j : ℕ), (mwiGo x w s j fuel).length = fuel
  | 0, _, _ => rfl
  | fuel + 1, s, j => by
    simp only [mwiGo, List.length_cons]
    rw [mwiGo_length x w fuel]

theorem conv_same25_length (x : List ℚ) : (conv_same25 x).length = x.length := by
  simp [conv_same25]

theorem getD_replicate_zero (n j : ℕ) : (List.replicate n (0 : ℚ)).getD j 0 = 0 := by
  rcases lt_or_ge j n with h | h
  · simp [List.getD_eq_getElem?_getD, List.getElem?_replicate, h]
  · simp [List.getD_eq_getElem?_getD, List.getElem?_replicate, Nat.not_lt.mpr h]

theorem lpAux_replicate_zero (n : ℕ) : ∀ k, lpAux (List.replicate n (0 : ℚ)) k = (0, 0)
  | 0 => by simp [lpAux, getD_replicate_zero]
  | k + 1 => by
    simp [lpAux, getD_replicate_zero, lpAux_replicate_zero n k, ite_self]

theorem low_pass_replicate_zero (n : ℕ) :
    low_pass (List.replicate n (0 : ℚ)) = List.replicate n (0 : ℚ) := by
  unfold low_pass
  rw [List.length_replicate]
  have h : ∀ k ∈ List.range n, (lpAux (List.replicate n (0 : ℚ)) k).1 = (fun _ : ℕ => (0 : ℚ)) k :=
    fun k _ => by rw [lpAux_replicate_zero]
  rw [List.map_congr_left h, List.map_const', List.length_range]

theorem hpAux_replicate_zero (n : ℕ) : ∀ k, hpAux (List.replicate n (0 : ℚ)) k = 0
  | 0 => by simp [hpAux, getD_replicate_zero]
  | k + 1 => by
    simp [hpAux, getD_replicate_zero, hpAux_replicate_zero n k, ite_self]

theorem high_pass_replicate_zero (n : ℕ) :
    high_pass (List.replicate n (0 : ℚ)) = List.replicate n (0 : ℚ) := by
  unfold high_pass
  rw [List.length_replicate]
  have h : ∀ k ∈ List.range n, hpAux (List.replicate n (0 : ℚ)) k = (fun _ : ℕ => (0 : ℚ)) k :=
    fun k _ => by rw [hpAux_replicate_zero]
  rw [List.map_congr_left h, List.map_const', List.length_range]

theorem foldl_max_replicate_zero : ∀ k, (List.replicate k (0 : ℚ)).foldl max 0 = 0
  | 0 => rfl
  | k + 1 => by
    simp only [List.replicate_succ, List.foldl_cons, max_self]
    exact foldl_max_replicate_zero k

theorem foldl_min_replicate_zero : ∀ k, (List.replicate k (0 : ℚ)).foldl min 0 = 0
  | 0 => rfl
  | k + 1 => by
    simp only [List.replicate_succ, List.foldl_cons, min_self]
    exact foldl_min_replicate_zero k

theorem bp_norm_divisor_replicate_zero (n : ℕ) :
    bp_norm_divisor (List.replicate n (0 : ℚ)) = 0 := by
  cases n with
  | zero => simp [bp_norm_divisor, qmaxD, qminD]
  | succ k =>
    simp only [bp_norm_divisor, qmaxD, qminD, List.replicate_succ]
    rw [foldl_max_replicate_zero k, foldl_min_replicate_zero k]
    simp

/-- C4, amended.  For every all-zero input of length at least 1 the bandpass
normalization divisor is exactly zero, and `band_pass_filter` nevertheless
returns normally with a full-length output (whose samples are `0/0`, i.e. NaN
in the floating-point source): no explicit DegenerateSignal failure exists in
the code. -/
theorem C4_amended_thm (n : ℕ) (h : 1 ≤ n) :
    bp_norm_divisor (high_pass (low_pass (List.replicate n 0))) = 0 ∧
      ∃ out, band_pass_filter (List.replicate n 0) = some out ∧ out.length = n := by
  have hlp := low_pass_replicate_zero n
  have hdiv : bp_norm_divisor (high_pass (low_pass (List.replicate n 0))) = 0 := by
    rw [hlp, high_pass_replicate_zero, bp_norm_divisor_replicate_zero]
  refine ⟨hdiv, ?_⟩
  have hne : (high_pass (low_pass (List.replicate n (0 : ℚ)))).isEmpty = false := by
    rw [hlp, high_pass_replicate_zero]
    cases n with
    | zero => omega
    | succ k => simp [List.replicate_succ]
  refine ⟨(high_pass (low_pass (List.replicate n 0))).map
      (fun v => v / bp_norm_divisor (high_pass (low_pass (List.replicate n 0)))), ?_, ?_⟩
  · simp [band_pass_filter, hne]
  · rw [List.length_map, high_pass_length, low_pass_length, List.length_replicate]

/-- C4, amended, witness at the all-zero signal of length 3. -/
theorem C4_amended_witness :
    1 ≤ 3 ∧
      (bp_norm_divisor (high_pass (low_pass (List.replicate 3 0))) = 0 ∧
        ∃ out, band_pass_filter (List.replicate 3 0) = some out ∧ out.length = 3) :=
  ⟨by decide, C4_amended_thm 3 (by decide)⟩

theorem band_pass_filter_length {s r : List ℚ} (h : band_pass_filter s = some r) :
    r.length = s.length := by
  by_cases he : (high_pass (low_pass s)).isEmpty
  · simp [band_pass_filter, he] at h
  · simp only [band_pass_filter, Bool.not_eq_true] at h
    rw [if_neg (by simp [he]), Option.some.injEq] at h
    rw [← h, List.length_map, high_pass_length, low_pass_length]

theorem band_pass_filter_some {s : List ℚ} (h : s ≠ []) :
    ∃ r, band_pass_filter s = some r ∧ r.length = s.length := by
  have hl : (high_pass (low_pass s)).length = s.length := by
    rw [high_pass_length, low_pass_length]
  have hne : ¬ (high_pass (low_pass s)).isEmpty = true := by
    intro hh
    rw [List.isEmpty_iff] at hh
    rw [hh] at hl
    exact h (List.length_eq_zero.mp hl.symm)
  refine ⟨(high_pass (low_pass s)).map (fun v => v / bp_norm_divisor (high_pass (low_pass s))),
    ?_, ?_⟩
  · simp only [band_pass_filter]
    rw [if_neg hne]
  · rw [List.length_map, hl]

theorem moving_window_integration_length {freq : ℚ} {s r : List ℚ}
    (h : moving_window_integration freq s = some r) : r.length = s.length := by
  by_cases hc : s.length < (pyRound (0.15 * freq)).toNat
  · simp [moving_window_integration, hc] at h
  · simp only [moving_window_integration] at h
    rw [if_neg hc, Option.some.injEq] at h
    rw [← h, mwiGo_length]

theorem moving_window_integration_some {freq : ℚ} {s : List ℚ}
    (h : (pyRound (0.15 * freq)).toNat ≤ s.length) :
    ∃ r, moving_window_integration freq s = some r ∧ r.length = s.length := by
  refine ⟨mwiGo s (pyRound (0.15 * freq)).toNat 0 0 s.length, ?_, mwiGo_length s _ _ _ _⟩
  simp only [moving_window_integration]
  rw [if_neg (by omega)]

/-- C9, amended.  Whenever the full cascade `solve` returns (its Option models the
exceptions raised on an empty input or on an input shorter than the integration
window), all four returned signals have exactly the input's length. -/
theorem C9_amended_thm (freq : ℚ) (signal : List ℚ) (d : QrsDict)
    (h : solve freq signal = some d) :
    d.bpass.length = signal.length ∧ d.der.length = signal.length ∧
      d.sqr.length = signal.length ∧ d.mwin.length = signal.length := by
  cases hbp : band_pass_filter signal with
  | none => rw [solve, hbp] at h; cases h
  | some bp =>
    rw [solve, hbp] at h
    dsimp only at h
    cases hmw : moving_window_integration freq (squaring (derivative freq bp)) with
    | none => rw [hmw] at h; cases h
    | some mw =>
      rw [hmw, Option.some.injEq] at h
      have hbl : bp.length = signal.length := band_pass_filter_length hbp
      have hml : mw.length = signal.length := by
        rw [moving_window_integration_length hmw, squaring_length, derivative_length, hbl]
      rw [← h]
      refine ⟨hbl, ?_, ?_, hml⟩
      · rw [derivative_length, hbl]
      · rw [squaring_length, derivative_length, hbl]

/-- C9, amended, witness: the cascade at 10 Hz on the three-sample constant
signal returns four signals of length 3. -/
theorem C9_amended_witness :
    ∃ d, solve 10 (List.replicate 3 1) = some d ∧
      d.bpass.length = 3 ∧ d.der.length = 3 ∧ d.sqr.length = 3 ∧ d.mwin.length = 3 := by
  have hs : (solve 10 (List.replicate 3 1)).isSome = true := by decide
  obtain ⟨d, hd⟩ := Option.isSome_iff_exists.mp hs
  have h4 := C9_amended_thm 10 (List.replicate 3 1) d hd
  rw [List.length_replicate] at h4
  exact ⟨d, hd, h4.1, h4.2.1, h4.2.2.1, h4.2.2.2⟩

theorem pyRound_nonneg {x : ℚ} (h : 0 ≤ x) : 0 ≤ pyRound x := by
  have hf : 0 ≤ x.floor := by
    rw [Rat.le_floor]
    exact_mod_cast h
  simp only [pyRound]
  split_ifs <;> omega

/-- C8, amended.  For a signal whose length is at least the integration window
`round(0.15 freq)` (so that no stage raises) and still shorter than
`round(0.5 freq) + 2`, the full pipeline succeeds, the candidate list is empty,
and `find_r_peaks` returns the untouched initial state and an empty final
R-peak list.  (Signals shorter than the integration window raise instead, see
the counterexample.) -/
theorem C8_amended_thm (freq : ℚ) (signal : List ℚ) (hf : 0 < freq)
    (h1 : 1 ≤ signal.length)
    (h2 : (pyRound (0.15 * freq)).toNat ≤ signal.length)
    (h3 : (signal.length : ℤ) < pyRound (0.5 * freq) + 2) :
    ∃ d, solve freq signal = some d ∧ approx_peak (mkCtx signal freq d) = [] ∧
      find_r_peaks (mkCtx signal freq d) = some (initState, []) := by
  have hsne : signal ≠ [] := by
    intro hs
    rw [hs] at h1
    simp at h1
  obtain ⟨bp, hbp, hbl⟩ := band_pass_filter_some hsne
  have hsq : (squaring (derivative freq bp)).length = signal.length := by
    rw [squaring_length, derivative_length, hbl]
  obtain ⟨mw, hmw, hml⟩ :=
    @moving_window_integration_some freq (squaring (derivative freq bp)) (by omega)
  have hmll : mw.length = signal.length := by rw [hml, hsq]
  have hsolve :
      solve freq signal = some ⟨bp, derivative freq bp, squaring (derivative freq bp), mw⟩ := by
    rw [solve, hbp]
    dsimp only
    rw [hmw]
  have happ : approx_peak (mkCtx signal freq ⟨bp, derivative freq bp,
      squaring (derivative freq bp), mw⟩) = [] := by
    have h5 : 0 ≤ pyRound (0.5 * freq) :=
      pyRound_nonneg (mul_pos (by norm_num : (0 : ℚ) < 0.5) hf).le
    have hcount :
        (conv_same25 mw).length - 1 - ((pyRound (0.5 * freq)).toNat + 1) = 0 := by
      have hcl : (conv_same25 mw).length = signal.length := by
        rw [conv_same25_length, hmll]
      omega
    rw [approx_peak]
    dsimp only [mkCtx]
    rw [hcount]
    simp [List.range']
  refine ⟨_, hsolve, happ, ?_⟩
  rw [find_r_peaks]
  dsimp only [mkCtx] at happ ⊢
  rw [happ]
  simp [ecg_searchback, npUnique, sortInts, ecg_run, initState, List.dedup_nil]

/-- C8, amended, witness: three constant samples at 10 Hz (window 2) yield an
empty candidate list and an empty final R-peak list with no error. -/
theorem C8_amended_witness :
    (0 : ℚ) < 10 ∧ 1 ≤ (List.replicate 3 (1 : ℚ)).length ∧
      (pyRound (0.15 * 10)).toNat ≤ (List.replicate 3 (1 : ℚ)).length ∧
      ((List.replicate 3 (1 : ℚ)).length : ℤ) < pyRound (0.5 * 10) + 2 ∧
      ∃ d, solve 10 (List.replicate 3 1) = some d ∧
        approx_peak (mkCtx (List.replicate 3 1) 10 d) = [] ∧
        find_r_peaks (mkCtx (List.replicate 3 1) 10 d) = some (initState, []) :=
  ⟨by norm_num, by decide, by decide, by decide,
    C8_amended_thm 10 (List.replicate 3 1) (by norm_num) (by decide) (by decide) (by decide)⟩

theorem pyInt_nonneg {x : ℚ} (h : 0 ≤ x) : 0 ≤ pyInt x := by
  rw [pyInt, if_pos h, Rat.le_floor]
  exact_mod_cast h

theorem pySlice_length_of_bounds (l : List ℚ) (a b : ℤ) (ha : 0 ≤ a) (hab : a ≤ b)
    (hb : b ≤ (l.length : ℤ)) : ((pySlice l a b).length : ℤ) = b - a := by
  have hbn : pyBound l.length b = b.toNat := by
    rw [pyBound, if_neg (by omega)]
    omega
  have han : pyBound l.length a = a.toNat := by
    rw [pyBound, if_neg (by omega)]
    omega
  rw [pySlice, hbn, han, List.length_drop, List.length_take]
  omega

/-- C7, amended.  With the bounds the code actually computes —
`left_bound = int(n_seconds4beat*freq/4)` and
`right_bound = int(3*n_seconds4beat*freq/4)`, integer TRUNCATION rather than
rounding — every beat segment returned by `extract_beats` has exactly
`left_bound + right_bound` samples; at `freq = 250`, `n_seconds4beat = 1` that
is `62 + 187 = 249` samples, not 250. -/
theorem C7_amended_thm (n_sec freq : ℚ) (hn : 0 ≤ n_sec) (hf : 0 ≤ freq)
    (sig : List ℚ) (rpeaks : List ℤ) (b : List ℚ)
    (hb : b ∈ extract_beats_lead sig rpeaks (left_bound n_sec freq) (right_bound n_sec freq)) :
    (b.length : ℤ) = left_bound n_sec freq + right_bound n_sec freq := by
  have hlb : 0 ≤ left_bound n_sec freq :=
    pyInt_nonneg (by
      apply div_nonneg _ (by norm_num)
      exact mul_nonneg (mul_nonneg hn hf) (by norm_num))
  have hrb : 0 ≤ right_bound n_sec freq :=
    pyInt_nonneg (by
      apply div_nonneg _ (by norm_num)
      exact mul_nonneg (mul_nonneg hn hf) (by norm_num))
  rw [extract_beats_lead] at hb
  obtain ⟨p, hp, hcond⟩ := List.mem_filterMap.mp hb
  by_cases hc : (sig.length : ℤ) ≤ p + right_bound n_sec freq ∨ p - left_bound n_sec freq < 0
  · rw [if_pos hc] at hcond
    cases hcond
  · rw [if_neg hc] at hcond
    push_neg at hc
    obtain ⟨h1, h2⟩ := hc
    rw [Option.some.injEq] at hcond
    rw [← hcond,
      pySlice_length_of_bounds sig _ _ (by omega) (by omega) (by omega)]
    ring

/-- C7, amended, witness: the single beat extracted around peak 100 of a
300-sample zero signal at 250 Hz has `62 + 187 = 249` samples. -/
theorem C7_amended_witness :
    (0 : ℚ) ≤ 1 ∧ (0 : ℚ) ≤ 250 ∧
      ((pySlice (List.replicate 300 (0 : ℚ)) 38 287).length : ℤ) =
        left_bound 1 250 + right_bound 1 250 :=
  ⟨by norm_num, by norm_num,
    C7_amended_thm 1 250 (by norm_num) (by norm_num) (List.replicate 300 0) [5, 100]
      (pySlice (List.replicate 300 0) 38 287) (by decide)⟩

/-- C10, confirmed.  `extract_beats` filters out every non-positive detected
index BEFORE dropping the first remaining peak, so inserting a non-positive
index anywhere in the detector output changes neither the selected peaks nor
the extracted beats, and every selected peak is strictly positive. -/
theorem C10_thm (sig : List ℚ) (lb rb : ℤ) (l1 l2 : List ℤ) (x : ℤ) (hx : x ≤ 0) :
    selected_peaks (l1 ++ x :: l2) = selected_peaks (l1 ++ l2) ∧
      extract_beats_lead sig (l1 ++ x :: l2) lb rb = extract_beats_lead sig (l1 ++ l2) lb rb ∧
      ∀ p ∈ selected_peaks (l1 ++ x :: l2), 0 < p := by
  have hfx : (fun y : ℤ => decide (0 < y)) x = false := by
    simp only [decide_eq_false_iff_not]
    omega
  have hsel : selected_peaks (l1 ++ x :: l2) = selected_peaks (l1 ++ l2) := by
    rw [selected_peaks, selected_peaks, List.filter_append, List.filter_append,
      List.filter_cons_of_neg (by simpa using hfx)]
  refine ⟨hsel, by rw [extract_beats_lead, extract_beats_lead, hsel], ?_⟩
  intro p hp
  have hp' : p ∈ (l1 ++ x :: l2).filter (fun y : ℤ => decide (0 < y)) :=
    List.drop_subset 1 _ hp
  simpa using List.of_mem_filter hp'

/-- C10, witness at a concrete run: removing the non-positive index `-3` does
not change the extracted beats. -/
theorem C10_witness :
    (-3 : ℤ) ≤ 0 ∧
      extract_beats_lead [(1 : ℚ), 2, 3, 4, 5, 6] ([2] ++ (-3) :: [4]) 1 1 =
        extract_beats_lead [(1 : ℚ), 2, 3, 4, 5, 6] ([2] ++ [4]) 1 1 :=
  ⟨by decide, (C10_thm [(1 : ℚ), 2, 3, 4, 5, 6] 1 1 [2] [4] (-3) (by decide)).2.1⟩

theorem mem_intRange {a b p : ℤ} : p ∈ intRange a b ↔ a ≤ p ∧ p < b := by
  simp only [intRange, List.mem_map, List.mem_range]
  constructor
  · rintro ⟨k, hk, rfl⟩
    omega
  · intro h
    exact ⟨(p - a).toNat, by omega, by omega⟩

theorem findFirstMax_congr (f g : ℤ → ℚ) (m : ℚ) :
    ∀ (l : List ℤ), (∀ p ∈ l, f p = g p) → findFirstMax f m l = findFirstMax g m l
  | [], _ => rfl
  | p :: ps, h => by
    have hp : f p = g p := h p (List.mem_cons_self p ps)
    rw [findFirstMax, findFirstMax, hp,
      findFirstMax_congr f g m ps (fun q hq => h q (List.mem_cons_of_mem p hq))]

/-- C6, amended.  For every accepted index `r` at least `win_200ms` (so that the
unclipped left window edge is still nonnegative), the `ecg_searchback` step
reports exactly the claim's refined peak: the first index of the window
`[r - w, min(len, r + w + 1))` attaining the maximum raw-signal value there.
For `r < win_200ms` the code's window wraps around to the end of the signal
(see the counterexample) instead of being clipped at 0. -/
theorem C6_amended_thm (sig : List ℚ) (w : ℕ) (r : ℤ) (h : (w : ℤ) ≤ r) :
    ecg_step sig w r = some (spec_refined_peak sig w r) := by
  have hpos : ∀ p ∈ intRange (r - (w : ℤ)) (min (sig.length : ℤ) (r + (w : ℤ) + 1)),
      0 ≤ p ∧ p < (sig.length : ℤ) := by
    intro p hp
    rw [mem_intRange] at hp
    omega
  have hval : ∀ p ∈ intRange (r - (w : ℤ)) (min (sig.length : ℤ) (r + (w : ℤ) + 1)),
      npVal sig p = (sig[p.toNat]?).getD 0 := by
    intro p hp
    rw [npVal, npGet, if_pos (hpos p hp).1]
  have hall : (intRange (r - (w : ℤ)) (min (sig.length : ℤ) (r + (w : ℤ) + 1))).all
      (fun p => (npGet sig p).isSome) = true := by
    rw [List.all_eq_true]
    intro p hp
    obtain ⟨h0, hl⟩ := hpos p hp
    rw [npGet, if_pos h0]
    have hlt : p.toNat < sig.length := by omega
    simp [List.getElem?_eq_getElem hlt]
  have hmax : max 0 (r - (w : ℤ)) = r - (w : ℤ) := by omega
  rw [ecg_step, spec_refined_peak]
  rw [hmax, if_pos hall, List.map_congr_left hval,
    findFirstMax_congr (npVal sig) (fun p => (sig[p.toNat]?).getD 0) _ _ hval]

/-- C6, amended, witness at `r = 3 ≥ win_200ms = 2` on the concrete C6 signal. -/
theorem C6_amended_witness :
    ((2 : ℕ) : ℤ) ≤ 3 ∧ ecg_step sigC6 2 3 = some (spec_refined_peak sigC6 2 3) :=
  ⟨by decide, C6_amended_thm sigC6 2 3 (by decide)⟩

theorem intRange_pairwise (a b : ℤ) : (intRange a b).Pairwise (fun p q => p < q) := by
  rw [intRange, List.pairwise_map]
  exact (List.pairwise_lt_range _).imp (fun h => by omega)

theorem findFirstMax_mem {f : ℤ → ℚ} {m : ℚ} :
    ∀ {l : List ℤ} {p : ℤ}, findFirstMax f m l = some p → p ∈ l ∧ f p = m := by
  intro l
  induction l with
  | nil => intro p h; exact absurd h (by simp [findFirstMax])
  | cons q qs ih =>
    intro p h
    rw [findFirstMax] at h
    by_cases hq : f q = m
    · rw [if_pos hq] at h
      obtain rfl : q = p := by injection h
      exact ⟨List.mem_cons_self q qs, hq⟩
    · rw [if_neg hq] at h
      obtain ⟨h1, h2⟩ := ih h
      exact ⟨List.mem_cons_of_mem q h1, h2⟩

theorem findFirstMax_first {f : ℤ → ℚ} {m : ℚ} :
    ∀ {l : List ℤ}, l.Pairwise (fun p q => p < q) →
      ∀ {p : ℤ}, findFirstMax f m l = some p → ∀ q ∈ l, q < p → f q ≠ m := by
  intro l
  induction l with
  | nil => intro _ p h; exact absurd h (by simp [findFirstMax])
  | cons x xs ih =>
    intro hpw p h q hq hlt
    obtain ⟨hx1, hx2⟩ := List.pairwise_cons.mp hpw
    rw [findFirstMax] at h
    by_cases hx : f x = m
    · rw [if_pos hx] at h
      obtain rfl : x = p := by injection h
      rcases List.mem_cons.mp hq with rfl | hq'
      · omega
      · have := hx1 q hq'
        omega
    · rw [if_neg hx] at h
      rcases List.mem_cons.mp hq with rfl | hq'
      · exact hx
      · exact ih hx2 h q hq' hlt

theorem foldl_max_init : ∀ (l : List ℚ) (b : ℚ), b ≤ l.foldl max b
  | [], b => le_refl b
  | x :: xs, b => le_trans (le_max_left b x) (foldl_max_init xs (max b x))

theorem foldl_max_le_of_mem : ∀ (l : List ℚ) (b x : ℚ), x ∈ l → x ≤ l.foldl max b
  | [], _, x, h => absurd h (List.not_mem_nil x)
  | y :: ys, b, x, h => by
    rcases List.mem_cons.mp h with rfl | h'
    · exact le_trans (le_max_right b x) (foldl_max_init ys (max b x))
    · exact foldl_max_le_of_mem ys (max b y) x h'

theorem le_qmaxD {l : List ℚ} {x : ℚ} (d : ℚ) (h : x ∈ l) : x ≤ qmaxD l d := by
  cases l with
  | nil => exact absurd h (List.not_mem_nil x)
  | cons y ys =>
    simp only [qmaxD]
    rcases List.mem_cons.mp h with rfl | h'
    · exact foldl_max_init ys x
    · exact foldl_max_le_of_mem ys y x h'

theorem ecg_step_elim {sig : List ℚ} {w : ℕ} {r x : ℤ}
    (h : ecg_step sig w r = some (some x)) :
    findFirstMax (npVal sig)
      (qmaxD ((intRange (r - (w : ℤ)) (min (sig.length : ℤ) (r + (w : ℤ) + 1))).map
        (npVal sig)) 0)
      (intRange (r - (w : ℤ)) (min (sig.length : ℤ) (r + (w : ℤ) + 1))) = some x := by
  simp only [ecg_step] at h
  by_cases hc : (intRange (r - (w : ℤ)) (min (sig.length : ℤ) (r + (w : ℤ) + 1))).all
      (fun p => (npGet sig p).isSome) = true
  · rw [if_pos hc] at h
    exact Option.some.inj h
  · rw [if_neg hc] at h
    cases h

theorem ecg_step_mono {sig : List ℚ} {w : ℕ} {r1 r2 x1 x2 : ℤ} (hr : r1 < r2)
    (h1 : ecg_step sig w r1 = some (some x1)) (h2 : ecg_step sig w r2 = some (some x2)) :
    x1 ≤ x2 := by
  have hf1 := ecg_step_elim h1
  have hf2 := ecg_step_elim h2
  obtain ⟨hmem1, heq1⟩ := findFirstMax_mem hf1
  obtain ⟨hmem2, heq2⟩ := findFirstMax_mem hf2
  have hfirst1 := findFirstMax_first (intRange_pairwise _ _) hf1
  have hx1 := mem_intRange.mp hmem1
  have hx2 := mem_intRange.mp hmem2
  by_contra hcon
  push_neg at hcon
  have hx2in1 : x2 ∈ intRange (r1 - (w : ℤ)) (min (sig.length : ℤ) (r1 + (w : ℤ) + 1)) :=
    mem_intRange.mpr ⟨by omega, by omega⟩
  have hx1in2 : x1 ∈ intRange (r2 - (w : ℤ)) (min (sig.length : ℤ) (r2 + (w : ℤ) + 1)) :=
    mem_intRange.mpr ⟨by omega, by omega⟩
  have hne : npVal sig x2 ≠
      qmaxD ((intRange (r1 - (w : ℤ)) (min (sig.length : ℤ) (r1 + (w : ℤ) + 1))).map
        (npVal sig)) 0 :=
    hfirst1 x2 hx2in1 hcon
  have hle1 : npVal sig x2 ≤
      qmaxD ((intRange (r1 - (w : ℤ)) (min (sig.length : ℤ) (r1 + (w : ℤ) + 1))).map
        (npVal sig)) 0 :=
    le_qmaxD 0 (List.mem_map_of_mem (npVal sig) hx2in1)
  have hle2 : npVal sig x1 ≤
      qmaxD ((intRange (r2 - (w : ℤ)) (min (sig.length : ℤ) (r2 + (w : ℤ) + 1))).map
        (npVal sig)) 0 :=
    le_qmaxD 0 (List.mem_map_of_mem (npVal sig) hx1in2)
  rw [← heq1] at hle1
  rw [← heq2] at hle2
  exact hne (by rw [← heq1]; exact le_antisymm hle1 hle2)

theorem insertSorted_perm (x : ℤ) : ∀ (l : List ℤ), (insertSorted x l).Perm (x :: l)
  | [] => List.Perm.refl _
  | y :: ys => by
    rw [insertSorted]
    by_cases h : x ≤ y
    · rw [if_pos h]
    · rw [if_neg h]
      exact ((insertSorted_perm x ys).cons y).trans (List.Perm.swap x y ys)

theorem insertSorted_sorted (x : ℤ) :
    ∀ {l : List ℤ}, l.Pairwise (fun a b => a ≤ b) →
      (insertSorted x l).Pairwise (fun a b => a ≤ b) := by
  intro l
  induction l with
  | nil => intro _; simp [insertSorted]
  | cons y ys ih =>
    intro h
    obtain ⟨hy, hys⟩ := List.pairwise_cons.mp h
    rw [insertSorted]
    by_cases hxy : x ≤ y
    · rw [if_pos hxy]
      refine List.pairwise_cons.mpr ⟨?_, h⟩
      intro z hz
      rcases List.mem_cons.mp hz with rfl | hz'
      · exact hxy
      · exact le_trans hxy (hy z hz')
    · rw [if_neg hxy]
      refine List.pairwise_cons.mpr ⟨?_, ih hys⟩
      intro z hz
      rw [(insertSorted_perm x ys).mem_iff] at hz
      rcases List.mem_cons.mp hz with rfl | hz'
      · omega
      · exact hy z hz'

theorem sortInts_perm : ∀ (l : List ℤ), (sortInts l).Perm l
  | [] => List.Perm.refl _
  | x :: xs => (insertSorted_perm x (sortInts xs)).trans ((sortInts_perm xs).cons x)

theorem sortInts_sorted : ∀ (l : List ℤ), (sortInts l).Pairwise (fun a b => a ≤ b)
  | [] => List.Pairwise.nil
  | x :: xs => insertSorted_sorted x (sortInts_sorted xs)

theorem npUnique_pairwise (l : List ℤ) : (npUnique l).Pairwise (fun p q => p < q) := by
  have hnd : (sortInts l.dedup).Nodup :=
    (sortInts_perm l.dedup).nodup_iff.mpr (List.nodup_dedup l)
  have hs := sortInts_sorted l.dedup
  rw [npUnique]
  exact (hs.and hnd).imp (fun h => by omega)

theorem ecg_run_pairwise {sig : List ℚ} {w : ℕ} :
    ∀ {inp out : List ℤ}, inp.Pairwise (fun p q => p < q) → ecg_run sig w inp = some out →
      out.Pairwise (fun a b => a ≤ b) ∧
        ∀ y ∈ out, ∃ r ∈ inp, ecg_step sig w r = some (some y) := by
  intro inp
  induction inp with
  | nil =>
    intro out _ h
    rw [ecg_run] at h
    obtain rfl : ([] : List ℤ) = out := Option.some.inj h
    simp
  | cons r rs ih =>
    intro out hpw h
    obtain ⟨hhead, htail⟩ := List.pairwise_cons.mp hpw
    rw [ecg_run] at h
    cases hstep : ecg_step sig w r with
    | none => rw [hstep] at h; cases h
    | some o =>
      rw [hstep] at h
      cases o with
      | none =>
        dsimp only at h
        obtain ⟨hp, hmem⟩ := ih htail h
        refine ⟨hp, fun y hy => ?_⟩
        obtain ⟨r', hr', he⟩ := hmem y hy
        exact ⟨r', List.mem_cons_of_mem r hr', he⟩
      | some x =>
        dsimp only at h
        cases hrun : ecg_run sig w rs with
        | none => rw [hrun] at h; cases h
        | some l =>
          rw [hrun] at h
          obtain rfl : x :: l = out := Option.some.inj (by simpa using h)
          obtain ⟨hp, hmem⟩ := ih htail hrun
          constructor
          · refine List.pairwise_cons.mpr ⟨?_, hp⟩
            intro y hy
            obtain ⟨r', hr', he⟩ := hmem y hy
            exact ecg_step_mono (hhead r' hr') hstep he
          · intro y hy
            rcases List.mem_cons.mp hy with rfl | hy'
            · exact ⟨r, List.mem_cons_self r rs, hstep⟩
            · obtain ⟨r', hr', he⟩ := hmem y hy'
              exact ⟨r', List.mem_cons_of_mem r hr', he⟩

/-- C5, amended.  For every input accepted set (duplicates included), whenever
`ecg_searchback` returns, its output list is NON-DECREASING; it need not be
strictly ascending and can contain duplicate indices (see the counterexample),
because adjacent deduplicated indices can share the same raw-signal maximum. -/
theorem C5_amended_thm (sig : List ℚ) (w : ℕ) (r_locs out : List ℤ)
    (h : ecg_searchback sig w r_locs = some out) :
    out.Pairwise (fun a b => a ≤ b) := by
  rw [ecg_searchback] at h
  exact (ecg_run_pairwise (npUnique_pairwise r_locs) h).1

/-- C5, amended, witness: a run with a duplicated input index returns the
non-decreasing list `[4, 4]`. -/
theorem C5_amended_witness :
    ecg_searchback sigC5 2 [4, 3, 4] = some [4, 4] ∧
      List.Pairwise (fun a b : ℤ => a ≤ b) [4, 4] :=
  ⟨by decide, C5_amended_thm sigC5 2 [4, 3, 4] [4, 4] (by decide)⟩
